import Mathlib

/-!
# Verification of the ww4ff feature-transform pipeline (`ww4ff/data/transform/base.py`)

A shallow embedding of the audio preprocessing pipeline:

* `ZmuvTransform` — streaming zero-mean-unit-variance normalizer with running
  first/second moments (`total`, `mean`, `mean2` buffers), updated by
  `ZmuvTransform.update`.
* `batchify` — sorts labeled audio examples by descending sample count,
  pads them with zeros to a common length and emits a `ClassificationBatch`.
* `random_slice` — random fixed-size windowing of over-long clips.
* `Composition` / `compose` — sequential chaining of transform stages.
* `StandardAudioTransform` — log-mel + delta + delta-delta feature stacking.

Waveforms and feature tensors are modelled with exact rational entries
(`ℚ`); floating point rounding is out of scope.  Fallible operations
(`batchify`, which can raise from Python's `max()` on an empty sequence or
from `torch.cat` on a zero-dimensional tensor) return `Except`.
-/

namespace WW4FF

/-! ## Streaming normalizer (ZMUV) -/

/-- The three registered buffers of `ZmuvTransform` (`total`, `mean`, `mean2`),
initialized to zero in `__init__`. -/
@[ext]
structure ZmuvState where
  total : ℚ
  mean : ℚ
  mean2 : ℚ
  deriving DecidableEq

/-- The zero state produced by `ZmuvTransform.__init__`
(`torch.zeros(1)` for each buffer). -/
def zmuvZero : ZmuvState := ⟨0, 0, 0⟩

/-- Source `ZmuvTransform.update(data, mask)`.  `data` is the flattened tensor of
feature values; a `mask` (same shape) multiplies `data` elementwise and its
sum replaces `data.numel()` as the effective element count.  Mirrors the
source: `mean` is recomputed from the old state, then `mean2` from the old
state, then `total` is incremented. -/
def ZmuvTransform.update (st : ZmuvState) (data : List ℚ) (mask : Option (List ℚ)) :
    ZmuvState :=
  let d : List ℚ :=
    match mask with
    | some m => data.zipWith (fun a b => a * b) m
    | none => data
  let mask_size : ℚ :=
    match mask with
    | some m => m.sum
    | none => (data.length : ℚ)
  { total := st.total + mask_size
    mean := (d.sum + st.mean * st.total) / (st.total + mask_size)
    mean2 := ((d.map (fun x => x ^ 2)).sum + st.mean2 * st.total) / (st.total + mask_size) }

/-- Closed form of a single `update` from the zero state. -/
lemma update_zero_formula (L : List ℚ) :
    ZmuvTransform.update zmuvZero L none =
      ⟨(L.length : ℚ), L.sum / L.length, (L.map (fun x => x ^ 2)).sum / L.length⟩ := by
  simp [ZmuvTransform.update, zmuvZero]

/-- Merging lemma: two successive unmasked updates from the zero state
accumulate the same statistics as one update on the concatenation. -/
lemma update_merge_general (A B : List ℚ) :
    ZmuvTransform.update (ZmuvTransform.update zmuvZero A none) B none =
      ZmuvTransform.update zmuvZero (A ++ B) none := by
  rw [update_zero_formula, update_zero_formula]
  rcases eq_or_ne A.length 0 with hA | hA
  · have hAnil : A = [] := List.length_eq_zero.mp hA
    subst hAnil
    simp [ZmuvTransform.update]
  · have hAq : (A.length : ℚ) ≠ 0 := Nat.cast_ne_zero.mpr hA
    ext
    · simp [ZmuvTransform.update]
    · simp only [ZmuvTransform.update, List.sum_append, List.length_append]
      rw [div_mul_cancel₀ _ hAq]
      push_cast
      ring_nf
    · simp only [ZmuvTransform.update, List.map_append, List.sum_append, List.length_append]
      rw [div_mul_cancel₀ _ hAq]
      push_cast
      rw [add_comm ((List.map (fun x => x ^ 2) B).sum)]

/-- A single unmasked or masked update, from the zero state, is invariant
under swapping the roles of the two chunks of a concatenation. -/
lemma update_zero_append_comm (A B : List ℚ) :
    ZmuvTransform.update zmuvZero (B ++ A) none =
      ZmuvTransform.update zmuvZero (A ++ B) none := by
  rw [update_zero_formula, update_zero_formula]
  simp only [List.length_append, List.map_append, List.sum_append]
  rw [add_comm B.length, add_comm B.sum, add_comm ((List.map (fun x => x ^ 2) B).sum)]

/-- C1.  `ZmuvTransform.update(data, mask)` realizes the weighted incremental
mean merge: with `n = mask.sum()` when a mask is given (and `data` first
multiplied elementwise by the mask) and `n = data.numel()` otherwise, the
post-state is `total + n`, `(sum(data) + mean*total) / (total + n)`, and
`(sum(data²) + mean2*total) / (total + n)`. -/
theorem zmuv_update_rule (st : ZmuvState) (data : List ℚ) (mask : Option (List ℚ)) :
    ZmuvTransform.update st data mask =
      { total := st.total +
          (match mask with
           | some m => m.sum
           | none => (data.length : ℚ))
        mean := ((match mask with
           | some m => data.zipWith (fun a b => a * b) m
           | none => data).sum + st.mean * st.total) /
          (st.total + (match mask with
           | some m => m.sum
           | none => (data.length : ℚ)))
        mean2 := (((match mask with
           | some m => data.zipWith (fun a b => a * b) m
           | none => data).map (fun x => x ^ 2)).sum + st.mean2 * st.total) /
          (st.total + (match mask with
           | some m => m.sum
           | none => (data.length : ℚ))) } := by
  cases mask <;> rfl

/-- C7.  In exact arithmetic, splitting a dataset into two chunks and calling
`update` once per chunk from the zero state — in either order — leaves the
normalizer in exactly the state produced by a single `update` on the
concatenation (same `total`, `mean` and `mean2`, hence the same derived
standard deviation). -/
theorem zmuv_update_merge (A B : List ℚ) :
    ZmuvTransform.update (ZmuvTransform.update zmuvZero A none) B none =
      ZmuvTransform.update zmuvZero (A ++ B) none ∧
    ZmuvTransform.update (ZmuvTransform.update zmuvZero B none) A none =
      ZmuvTransform.update zmuvZero (A ++ B) none := by
  refine ⟨update_merge_general A B, ?_⟩
  rw [update_merge_general B A, update_zero_append_comm]

/-! ## Examples, batching -/

/-- A labeled audio clip.  `audio_data` holds the samples along the last
dimension of the waveform tensor (the tensor is 1-D `[N]` or a row `[1, N]`;
`squeeze()` flattens either to the same sample list, collapsing to a
zero-dimensional scalar exactly when `N = 1`). -/
structure WakeWordClipExample where
  audio_data : List ℚ
  contains_wake_word : Bool
  deriving DecidableEq

/-- Default example, used only as the fallback value of `List.getD`. -/
def exDefault : WakeWordClipExample := ⟨[], false⟩

/-- Sample count of an example: `ex.audio_data.size(-1)`. -/
def keyLen (ex : WakeWordClipExample) : ℕ := ex.audio_data.length

/-- The batch handed to model code: padded 2-D audio, 0/1 labels, original
sample counts. -/
structure ClassificationBatch where
  audio_tensor : List (List ℚ)
  labels_tensor : List ℕ
  lengths_tensor : List ℕ
  deriving DecidableEq

/-- The two ways `batchify` can raise: Python's `max()` over an empty
generator, and `torch.cat` applied to a zero-dimensional tensor. -/
inductive BatchError where
  | emptyMax
  | zeroDimCat
  deriving DecidableEq

/-- Insert an example into an already-sorted (descending by sample count)
list, before the first element whose key is not larger — so that, of two
equal-length examples, the one inserted later in `sortDesc`'s right fold
(i.e. earlier in the input) ends up first.  This reproduces the stable
descending sort of Python's `sorted(..., key=..., reverse=True)`. -/
def insertDesc (x : WakeWordClipExample) :
    List WakeWordClipExample → List WakeWordClipExample
  | [] => [x]
  | y :: ys => if keyLen x < keyLen y then y :: insertDesc x ys else x :: y :: ys

/-- Stable sort by sample count, descending:
`sorted(examples, key=lambda x: x.audio_data.size()[-1], reverse=True)`. -/
def sortDesc : List WakeWordClipExample → List WakeWordClipExample
  | [] => []
  | x :: xs => insertDesc x (sortDesc xs)

/-- One row of the batch tensor:
`torch.cat((ex.audio_data.squeeze(), torch.zeros(max_length - ex.audio_data.size(-1))), -1)`.
When the example has exactly one sample, `squeeze()` yields a 0-dimensional
tensor and `torch.cat` raises. -/
def squeezeCatRow (maxLength : ℕ) (ex : WakeWordClipExample) :
    Except BatchError (List ℚ) :=
  if ex.audio_data.length = 1 then .error .zeroDimCat
  else .ok (ex.audio_data ++ List.replicate (maxLength - ex.audio_data.length) (0 : ℚ))

/-- The list comprehension building `audio_tensor`: rows are produced in
order and the first failing `torch.cat` aborts the whole call. -/
def mapRows (maxLength : ℕ) :
    List WakeWordClipExample → Except BatchError (List (List ℚ))
  | [] => .ok []
  | ex :: rest =>
    match squeezeCatRow maxLength ex with
    | .error e => .error e
    | .ok row =>
      match mapRows maxLength rest with
      | .error e => .error e
      | .ok rows => .ok (row :: rows)

/-- Source `int(ex.contains_wake_word)`. -/
def labelOf (ex : WakeWordClipExample) : ℕ := if ex.contains_wake_word then 1 else 0

/-- Source `max(ex.audio_data.size(-1) for ex in examples)`, on the sorted examples
(junk value 0 on an empty input, where the real `max()` raises — `batchify`
never reads it there). -/
def batchMax (examples : List WakeWordClipExample) : ℕ :=
  match (sortDesc examples).map keyLen with
  | [] => 0
  | l0 :: ls => ls.foldl Nat.max l0

/-- Source `batchify(examples)`: stable-sort by sample count descending, build the
lengths tensor, compute `max_length` with Python's `max` (which raises on an
empty sequence), pad every (squeezed) waveform with zeros on the right to
`max_length`, stack, and pair with 0/1 labels. -/
def batchify (examples : List WakeWordClipExample) :
    Except BatchError ClassificationBatch :=
  match (sortDesc examples).map keyLen with
  | [] => .error .emptyMax
  | _ :: _ =>
    match mapRows (batchMax examples) (sortDesc examples) with
    | .error e => .error e
    | .ok rows =>
      .ok { audio_tensor := rows
            labels_tensor := (sortDesc examples).map labelOf
            lengths_tensor := (sortDesc examples).map keyLen }

lemma insertDesc_perm (x : WakeWordClipExample) (l : List WakeWordClipExample) :
    List.Perm (insertDesc x l) (x :: l) := by
  induction l with
  | nil => rfl
  | cons y ys ih =>
    simp only [insertDesc]
    split
    · exact ((ih.cons y).trans (List.Perm.swap x y ys))
    · exact List.Perm.refl _

lemma sortDesc_perm (es : List WakeWordClipExample) :
    List.Perm (sortDesc es) es := by
  induction es with
  | nil => rfl
  | cons x xs ih => exact (insertDesc_perm x (sortDesc xs)).trans (ih.cons x)

lemma sortDesc_length (es : List WakeWordClipExample) :
    (sortDesc es).length = es.length :=
  (sortDesc_perm es).length_eq

lemma mem_sortDesc {a : WakeWordClipExample} {es : List WakeWordClipExample} :
    a ∈ sortDesc es ↔ a ∈ es :=
  (sortDesc_perm es).mem_iff

/-- Descending order by sample count. -/
def DescByLen (l : List WakeWordClipExample) : Prop :=
  List.Pairwise (fun a b => keyLen b ≤ keyLen a) l

lemma insertDesc_descByLen {x : WakeWordClipExample} {l : List WakeWordClipExample}
    (h : DescByLen l) : DescByLen (insertDesc x l) := by
  induction l with
  | nil => exact List.pairwise_singleton _ _
  | cons y ys ih =>
    rcases List.pairwise_cons.mp h with ⟨hy, hys⟩
    simp only [insertDesc]
    split
    · rename_i hlt
      refine List.pairwise_cons.mpr ⟨?_, ih hys⟩
      intro z hz
      rcases List.mem_cons.mp ((insertDesc_perm x ys).mem_iff.mp hz) with hzx | hzys
      · subst hzx; exact Nat.le_of_lt hlt
      · exact hy z hzys
    · rename_i hge
      refine List.pairwise_cons.mpr ⟨?_, h⟩
      intro z hz
      rcases List.mem_cons.mp hz with hzy | hzys
      · subst hzy; exact Nat.le_of_not_lt hge
      · exact Nat.le_trans (hy z hzys) (Nat.le_of_not_lt hge)

lemma sortDesc_descByLen (es : List WakeWordClipExample) : DescByLen (sortDesc es) := by
  induction es with
  | nil => exact List.Pairwise.nil
  | cons x xs ih => exact insertDesc_descByLen ih

lemma insertDesc_filter_eq {x : WakeWordClipExample} {l : List WakeWordClipExample}
    {k : ℕ} (hx : keyLen x = k) (hl : DescByLen l) :
    (insertDesc x l).filter (fun e => keyLen e == k) =
      x :: l.filter (fun e => keyLen e == k) := by
  induction l with
  | nil => simp [insertDesc, hx]
  | cons y ys ih =>
    rcases List.pairwise_cons.mp hl with ⟨_, hys⟩
    simp only [insertDesc]
    split
    · rename_i hlt
      have hy : ¬ (keyLen y = k) := by omega
      simp only [List.filter_cons]
      simp only [beq_iff_eq, hy, if_neg, decide_eq_true_eq]
      simpa [hy] using ih hys
    · simp [List.filter_cons, hx]

lemma insertDesc_filter_ne {x : WakeWordClipExample} {l : List WakeWordClipExample}
    {k : ℕ} (hx : keyLen x ≠ k) :
    (insertDesc x l).filter (fun e => keyLen e == k) =
      l.filter (fun e => keyLen e == k) := by
  induction l with
  | nil => simp [insertDesc, hx]
  | cons y ys ih =>
    simp only [insertDesc]
    split
    · simp only [List.filter_cons]
      rw [ih]
    · simp [List.filter_cons, hx]

/-- Stability of the sort: for every sample count `k`, the examples of
length `k` appear in the sorted output exactly as they do in the input. -/
lemma sortDesc_filter (es : List WakeWordClipExample) (k : ℕ) :
    (sortDesc es).filter (fun e => keyLen e == k) =
      es.filter (fun e => keyLen e == k) := by
  induction es with
  | nil => rfl
  | cons x xs ih =>
    simp only [sortDesc]
    rcases eq_or_ne (keyLen x) k with hx | hx
    · rw [insertDesc_filter_eq hx (sortDesc_descByLen xs), ih, List.filter_cons,
        if_pos (by simpa using hx)]
    · rw [insertDesc_filter_ne hx, ih, List.filter_cons, if_neg (by simpa using hx)]

lemma le_foldl_max_init (l : List ℕ) (a : ℕ) : a ≤ l.foldl Nat.max a := by
  induction l generalizing a with
  | nil => exact Nat.le_refl a
  | cons x xs ih => exact Nat.le_trans (Nat.le_max_left a x) (ih (Nat.max a x))

lemma le_foldl_max_mem {l : List ℕ} {x : ℕ} (hx : x ∈ l) (a : ℕ) :
    x ≤ l.foldl Nat.max a := by
  induction l generalizing a with
  | nil => cases hx
  | cons y ys ih =>
    rcases List.mem_cons.mp hx with hxy | hys
    · subst hxy; exact Nat.le_trans (Nat.le_max_right a x) (le_foldl_max_init ys _)
    · exact ih hys _

lemma foldl_max_choice (l : List ℕ) (a : ℕ) :
    l.foldl Nat.max a = a ∨ l.foldl Nat.max a ∈ l := by
  induction l generalizing a with
  | nil => exact Or.inl rfl
  | cons x xs ih =>
    rcases ih (Nat.max a x) with h | h
    · rcases Nat.le_total a x with hax | hxa
      · right
        rw [List.foldl_cons, h]
        have hm : Nat.max a x = x := Nat.max_eq_right hax
        rw [hm]
        exact List.mem_cons_self x xs
      · left
        rw [List.foldl_cons, h]
        exact Nat.max_eq_left hxa
    · exact Or.inr (List.mem_cons_of_mem x h)

/-- The padded row produced for an example once `torch.cat` succeeds. -/
def padRow (maxLength : ℕ) (ex : WakeWordClipExample) : List ℚ :=
  ex.audio_data ++ List.replicate (maxLength - ex.audio_data.length) (0 : ℚ)

lemma mapRows_ok {l : List WakeWordClipExample} (M : ℕ)
    (h : ∀ ex ∈ l, ex.audio_data.length ≠ 1) :
    mapRows M l = .ok (l.map (padRow M)) := by
  induction l with
  | nil => rfl
  | cons ex rest ih =>
    have hex : ex.audio_data.length ≠ 1 := h ex (List.mem_cons_self ex rest)
    have hrest := ih (fun e he => h e (List.mem_cons_of_mem ex he))
    simp only [mapRows, squeezeCatRow, if_neg hex, hrest, List.map_cons, padRow]

lemma mapRows_error {l : List WakeWordClipExample} {M : ℕ} {e : BatchError}
    (h : mapRows M l = .error e) : e = .zeroDimCat := by
  induction l with
  | nil => cases h
  | cons ex rest ih =>
    simp only [mapRows, squeezeCatRow] at h
    by_cases hex : ex.audio_data.length = 1
    · rw [if_pos hex] at h
      cases h
      rfl
    · rw [if_neg hex] at h
      rcases hm : mapRows M rest with e2 | rows
      · rw [hm] at h
        cases h
        exact ih hm
      · rw [hm] at h
        cases h

lemma sortDesc_ne_nil {es : List WakeWordClipExample} (h : es ≠ []) :
    sortDesc es ≠ [] := by
  intro hnil
  have := sortDesc_length es
  rw [hnil] at this
  exact h (List.length_eq_zero.mp this.symm)

lemma batchMax_mem {es : List WakeWordClipExample} (h : es ≠ []) :
    batchMax es ∈ es.map keyLen := by
  obtain ⟨e0, tl, hsort⟩ := List.exists_cons_of_ne_nil (sortDesc_ne_nil h)
  have hmem : batchMax es ∈ (sortDesc es).map keyLen := by
    rw [batchMax, hsort, List.map_cons]
    show List.foldl Nat.max (keyLen e0) (tl.map keyLen) ∈ keyLen e0 :: tl.map keyLen
    rcases foldl_max_choice (tl.map keyLen) (keyLen e0) with hc | hc
    · rw [hc]; exact List.mem_cons_self _ _
    · exact List.mem_cons_of_mem _ hc
  exact ((sortDesc_perm es).map keyLen).mem_iff.mp hmem

lemma le_batchMax {es : List WakeWordClipExample} {l : ℕ}
    (hl : l ∈ es.map keyLen) : l ≤ batchMax es := by
  have hmem : l ∈ (sortDesc es).map keyLen :=
    ((sortDesc_perm es).map keyLen).mem_iff.mpr hl
  have hne : es ≠ [] := by
    intro hnil
    rw [hnil] at hl
    cases hl
  obtain ⟨e0, tl, hsort⟩ := List.exists_cons_of_ne_nil (sortDesc_ne_nil hne)
  rw [hsort, List.map_cons] at hmem
  rw [batchMax, hsort, List.map_cons]
  show l ≤ List.foldl Nat.max (keyLen e0) (tl.map keyLen)
  rcases List.mem_cons.mp hmem with h0 | hmemtl
  · subst h0; exact le_foldl_max_init _ _
  · exact le_foldl_max_mem hmemtl _

lemma batchify_ok_of_min2 (es : List WakeWordClipExample) (h0 : es ≠ [])
    (h2 : ∀ ex ∈ es, 2 ≤ ex.audio_data.length) :
    batchify es = .ok
      { audio_tensor := (sortDesc es).map (padRow (batchMax es))
        labels_tensor := (sortDesc es).map labelOf
        lengths_tensor := (sortDesc es).map keyLen } := by
  obtain ⟨e0, tl, hsort⟩ := List.exists_cons_of_ne_nil (sortDesc_ne_nil h0)
  have hok : mapRows (batchMax es) (e0 :: tl) =
      .ok ((e0 :: tl).map (padRow (batchMax es))) := by
    refine mapRows_ok _ (fun ex hex => ?_)
    have hex2 : ex ∈ sortDesc es := by rw [hsort]; exact hex
    have : 2 ≤ ex.audio_data.length := h2 ex (mem_sortDesc.mp hex2)
    omega
  simp only [batchify, hsort, List.map_cons, hok]

lemma batchify_ok_fields {es : List WakeWordClipExample} {b : ClassificationBatch}
    (hb : batchify es = .ok b) :
    b.labels_tensor = (sortDesc es).map labelOf ∧
    b.lengths_tensor = (sortDesc es).map keyLen := by
  rcases hsort : sortDesc es with _ | ⟨e0, tl⟩
  · rw [batchify, hsort] at hb
    cases hb
  · rw [batchify, hsort, List.map_cons] at hb
    rcases hm : mapRows (batchMax es) (e0 :: tl) with e | rows
    · rw [hm] at hb
      cases hb
    · rw [hm] at hb
      cases hb
      exact ⟨rfl, rfl⟩

/-- C9.  `batchify` on an empty sequence fails with the error of Python's
`max()` over zero elements; on every non-empty input, whatever else happens,
it never fails on that account. -/
theorem batchify_empty_fails :
    batchify ([] : List WakeWordClipExample) = .error .emptyMax ∧
    ∀ es : List WakeWordClipExample, es ≠ [] →
      batchify es ≠ .error .emptyMax := by
  refine ⟨rfl, fun es hes hcontra => ?_⟩
  obtain ⟨e0, tl, hsort⟩ := List.exists_cons_of_ne_nil (sortDesc_ne_nil hes)
  rw [batchify, hsort, List.map_cons] at hcontra
  rcases hm : mapRows (batchMax es) (e0 :: tl) with e | rows
  · rw [hm] at hcontra
    have he : e = .zeroDimCat := mapRows_error hm
    simp only [he] at hcontra
    cases hcontra
  · rw [hm] at hcontra
    cases hcontra

/-- C9 witness. -/
theorem batchify_empty_fails_witness :
    batchify [⟨[(1 : ℚ), 2], false⟩] ≠ .error .emptyMax :=
  batchify_empty_fails.2 [⟨[(1 : ℚ), 2], false⟩] (by simp)

/-- C10.  A batch whose maximum sample count exceeds one but which contains a
one-sample example makes `batchify` fail: `squeeze()` flattens that waveform
to a zero-dimensional tensor, which `torch.cat` cannot concatenate. -/
theorem batchify_one_sample_fails :
    batchify [⟨[(1 : ℚ), 2], false⟩, ⟨[(5 : ℚ)], true⟩] = .error .zeroDimCat := by
  rfl

/-- C2 counterexample.  On the (non-empty) input whose examples have sample
counts 1 and 3, `batchify` raises from `torch.cat` instead of returning a
`ClassificationBatch`, so the claim's universal guarantee over every
non-empty sequence fails. -/
theorem batchify_padding_counterexample :
    batchify [⟨[(7 : ℚ)], true⟩, ⟨[(1 : ℚ), 2, 3], false⟩] = .error .zeroDimCat := by
  rfl

/-- C2 (amended to examples of at least two samples, the regime in which
`squeeze()` keeps the waveform one-dimensional).  `batchify` returns a batch
with one row per example; every row has the batch-maximum length; the
maximum is the maximum sample count of the input; row `i` is the sorted
example `i`'s waveform followed by zeros at all indices `≥ lengths_tensor[i]`;
and every entry of `lengths_tensor` is at most the padded width. -/
theorem batchify_padding_spec (es : List WakeWordClipExample) (h0 : es ≠ [])
    (h2 : ∀ ex ∈ es, 2 ≤ ex.audio_data.length) :
    ∃ b, batchify es = .ok b ∧
      b.audio_tensor.length = es.length ∧
      (∀ row ∈ b.audio_tensor, row.length = batchMax es) ∧
      batchMax es ∈ es.map keyLen ∧
      (∀ l ∈ es.map keyLen, l ≤ batchMax es) ∧
      (∀ i, i < es.length →
        b.lengths_tensor.getD i 0 = keyLen ((sortDesc es).getD i exDefault) ∧
        b.audio_tensor.getD i [] =
          ((sortDesc es).getD i exDefault).audio_data ++
            List.replicate (batchMax es - b.lengths_tensor.getD i 0) (0 : ℚ)) ∧
      (∀ l ∈ b.lengths_tensor, l ≤ batchMax es) := by
  refine ⟨_, batchify_ok_of_min2 es h0 h2, ?_, ?_, batchMax_mem h0, fun l => le_batchMax, ?_, ?_⟩
  · simp [sortDesc_length]
  · intro row hrow
    simp only [List.mem_map] at hrow
    obtain ⟨ex, hex, hrw⟩ := hrow
    have hle : keyLen ex ≤ batchMax es :=
      le_batchMax (List.mem_map_of_mem keyLen (mem_sortDesc.mp hex))
    rw [← hrw]
    simp only [padRow, List.length_append, List.length_replicate]
    have : ex.audio_data.length ≤ batchMax es := hle
    omega
  · intro i hi
    have hi2 : i < (sortDesc es).length := by rw [sortDesc_length]; exact hi
    have hlen : (List.map keyLen (sortDesc es)).getD i 0 =
        keyLen ((sortDesc es).getD i exDefault) := by
      rw [List.getD_eq_getElem?_getD, List.getD_eq_getElem?_getD, List.getElem?_map,
        List.getElem?_eq_getElem hi2]
      rfl
    refine ⟨hlen, ?_⟩
    rw [hlen]
    rw [List.getD_eq_getElem?_getD, List.getD_eq_getElem?_getD, List.getElem?_map,
      List.getElem?_eq_getElem hi2]
    rfl
  · intro l hl
    simp only [List.mem_map] at hl
    obtain ⟨ex, hex, hrw⟩ := hl
    rw [← hrw]
    exact le_batchMax (List.mem_map_of_mem keyLen (mem_sortDesc.mp hex))

/-- C2 witness. -/
theorem batchify_padding_spec_witness :
    ∃ b, batchify [⟨[(1 : ℚ), 2], true⟩, ⟨[(3 : ℚ), 4, 5], false⟩] = .ok b ∧
      b.audio_tensor.length = 2 := by
  obtain ⟨b, hb, hlen, -⟩ :=
    batchify_padding_spec [⟨[(1 : ℚ), 2], true⟩, ⟨[(3 : ℚ), 4, 5], false⟩]
      (by simp) (by decide)
  exact ⟨b, hb, hlen⟩

/-- C5.  Whenever `batchify` returns a batch, its rows are ordered by sample
count descending (witnessed by `lengths_tensor`, which lists the sorted
sample counts), labels follow the same order, and the sort is stable: for
every sample count, the examples of that count appear exactly in their input
order.  `batchify` is a pure function of the input list, hence deterministic. -/
theorem batchify_sorted_stable (es : List WakeWordClipExample)
    (b : ClassificationBatch) (hb : batchify es = .ok b) :
    b.lengths_tensor = (sortDesc es).map keyLen ∧
    b.labels_tensor = (sortDesc es).map labelOf ∧
    List.Pairwise (fun a c => c ≤ a) b.lengths_tensor ∧
    (∀ k, (sortDesc es).filter (fun e => keyLen e == k) =
      es.filter (fun e => keyLen e == k)) := by
  obtain ⟨hlab, hlen⟩ := batchify_ok_fields hb
  refine ⟨hlen, hlab, ?_, sortDesc_filter es⟩
  rw [hlen]
  exact List.Pairwise.map keyLen (fun _ _ h => h) (sortDesc_descByLen es)

/-- C5 witness. -/
theorem batchify_sorted_stable_witness :
    List.Pairwise (fun a c => c ≤ a)
      (ClassificationBatch.mk [[(3 : ℚ), 4, 5], [1, 2, 0]] [0, 1] [3, 2]).lengths_tensor := by
  have h := batchify_sorted_stable [⟨[(1 : ℚ), 2], true⟩, ⟨[(3 : ℚ), 4, 5], false⟩]
    (ClassificationBatch.mk [[(3 : ℚ), 4, 5], [1, 2, 0]] [0, 1] [3, 2]) (by rfl)
  exact h.2.2.1

/-! ## Random windowing -/

/-- Source `random.randint(lo, hi)` driven by an externally supplied entropy draw
`r`: the result is `lo + r % (hi - lo + 1)`, so it always lies in
`[lo, hi]` and, as `r` ranges over the naturals, attains every value of
that inclusive range (Python's generator draws it uniformly). -/
def randint (lo hi r : ℕ) : ℕ := lo + r % (hi - lo + 1)

/-- Source `ex.emplaced_audio_data(d)`: a copy of the example with the waveform
replaced and all other fields kept. -/
def emplaced_audio_data (ex : WakeWordClipExample) (d : List ℚ) :
    WakeWordClipExample :=
  { ex with audio_data := d }

/-- The loop body of `random_slice` once an entropy draw `r` is fixed:
`a = random.randint(0, L - W)` followed by
`ex.emplaced_audio_data(ex.audio_data[..., a:a + W])`. -/
def slice_one (max_window_size r : ℕ) (ex : WakeWordClipExample) :
    WakeWordClipExample :=
  let a := randint 0 (ex.audio_data.length - max_window_size) r
  emplaced_audio_data ex ((ex.audio_data.drop a).take max_window_size)

/-- Source `random_slice(examples, max_window_size)`: examples shorter than the
window pass through untouched; the rest are sliced, consuming one entropy
draw from the head of `draws` each. -/
def random_slice (draws : List ℕ) (max_window_size : ℕ) :
    List WakeWordClipExample → List WakeWordClipExample
  | [] => []
  | ex :: rest =>
    if ex.audio_data.length < max_window_size then
      ex :: random_slice draws max_window_size rest
    else
      slice_one max_window_size (draws.headD 0) ex ::
        random_slice (draws.drop 1) max_window_size rest

lemma slice_one_short {W r : ℕ} {ex : WakeWordClipExample}
    (h : ex.audio_data.length ≤ W) : slice_one W r ex = ex := by
  have hz : ex.audio_data.length - W = 0 := Nat.sub_eq_zero_of_le h
  simp only [slice_one, randint, hz]
  norm_num
  simp only [Nat.mod_one, List.drop_zero]
  rw [List.take_of_length_le h]
  cases ex
  rfl

lemma random_slice_length (draws : List ℕ) (W : ℕ)
    (es : List WakeWordClipExample) :
    (random_slice draws W es).length = es.length := by
  induction es generalizing draws with
  | nil => rfl
  | cons ex rest ih =>
    simp only [random_slice]
    split
    · simp [ih]
    · simp [ih]

lemma random_slice_getD (draws : List ℕ) (W : ℕ)
    (es : List WakeWordClipExample) (i : ℕ) (hi : i < es.length) :
    ∃ r, (random_slice draws W es).getD i exDefault =
      slice_one W r (es.getD i exDefault) := by
  induction es generalizing draws i with
  | nil => cases hi
  | cons ex rest ih =>
    cases i with
    | zero =>
      simp only [random_slice]
      split
      · rename_i hlt
        exact ⟨0, by simp [slice_one_short (Nat.le_of_lt hlt)]⟩
      · exact ⟨draws.headD 0, by simp⟩
    | succ j =>
      have hj : j < rest.length := Nat.lt_of_succ_lt_succ hi
      simp only [random_slice]
      split
      · simpa using ih draws j hj
      · simpa using ih (draws.drop 1) j hj

/-- C4.  `random_slice` preserves the number and order of examples; every
output example is the loop body `slice_one` applied to the matching input
example for some entropy draw; a clip of at most `max_window_size` samples
passes through with its audio data unchanged; a longer clip of length `L`
is replaced by the contiguous `max_window_size`-sample slice starting at
offset `r % (L - W + 1)`, which always lies in `[0, L - W]`; and every
offset of that inclusive range is realized by some draw, the draw being
used verbatim when it is already in range. -/
theorem random_slice_spec (draws : List ℕ) (W : ℕ)
    (es : List WakeWordClipExample) :
    ((random_slice draws W es).length = es.length) ∧
    (∀ i, i < es.length → ∃ r,
      (random_slice draws W es).getD i exDefault =
        slice_one W r (es.getD i exDefault)) ∧
    (∀ (r : ℕ) (ex : WakeWordClipExample), ex.audio_data.length ≤ W →
      slice_one W r ex = ex) ∧
    (∀ (r : ℕ) (ex : WakeWordClipExample), W < ex.audio_data.length →
      (slice_one W r ex).audio_data.length = W ∧
      (slice_one W r ex).contains_wake_word = ex.contains_wake_word ∧
      (slice_one W r ex).audio_data =
        (ex.audio_data.drop (r % (ex.audio_data.length - W + 1))).take W ∧
      r % (ex.audio_data.length - W + 1) ≤ ex.audio_data.length - W) ∧
    (∀ (ex : WakeWordClipExample) (a : ℕ), W < ex.audio_data.length →
      a ≤ ex.audio_data.length - W →
      slice_one W a ex =
        emplaced_audio_data ex ((ex.audio_data.drop a).take W)) := by
  refine ⟨random_slice_length draws W es, random_slice_getD draws W es, ?_, ?_, ?_⟩
  · exact fun r ex h => slice_one_short h
  · intro r ex hlt
    have hmod : r % (ex.audio_data.length - W + 1) ≤ ex.audio_data.length - W :=
      Nat.lt_succ_iff.mp (Nat.mod_lt r (Nat.succ_pos _))
    refine ⟨?_, rfl, ?_, hmod⟩
    · simp only [slice_one, randint, Nat.zero_add, Nat.sub_zero, emplaced_audio_data,
        List.length_take, List.length_drop]
      omega
    · simp only [slice_one, randint, Nat.zero_add, Nat.sub_zero, emplaced_audio_data]
  · intro ex a hlt ha
    have hmod : a % (ex.audio_data.length - W + 1) = a :=
      Nat.mod_eq_of_lt (Nat.lt_succ_iff.mpr ha)
    simp only [slice_one, randint, Nat.zero_add, Nat.sub_zero, hmod]

/-- C4 witness. -/
theorem random_slice_spec_witness :
    (random_slice [5] 2 [⟨[(1 : ℚ), 2, 3, 4], true⟩]).length = 1 ∧
    slice_one 2 7 ⟨[(9 : ℚ)], true⟩ = ⟨[(9 : ℚ)], true⟩ ∧
    (slice_one 2 5 ⟨[(1 : ℚ), 2, 3, 4], true⟩).audio_data.length = 2 := by
  refine ⟨(random_slice_spec [5] 2 [⟨[(1 : ℚ), 2, 3, 4], true⟩]).1, ?_, ?_⟩
  · exact (random_slice_spec [] 2 []).2.2.1 7 ⟨[(9 : ℚ)], true⟩ (by decide)
  · exact ((random_slice_spec [] 2 []).2.2.2.1 5 ⟨[(1 : ℚ), 2, 3, 4], true⟩ (by decide)).1

/-! ## Spectral feature extractor: length computation -/

/-- Applying `.long()` to the result of (true) tensor division: conversion to int64
truncates toward zero. -/
def ratTrunc (q : ℚ) : ℤ := if q < 0 then ⌈q⌉ else ⌊q⌋

/-- Source `StandardAudioTransform.compute_lengths(length)`:
`((length - win_length) / hop_length + 1).long()` — elementwise on the
length tensor, so modelled on a single integer sample count.  `win_length`
and `hop_length` are the `MelSpectrogram` configuration (defaults 400 and
200). -/
def StandardAudioTransform.compute_lengths
    (win_length hop_length : ℕ) (length : ℤ) : ℤ :=
  ratTrunc (((length : ℚ) - win_length) / hop_length + 1)

/-- Modelled from the spec: the number of time-frames the spectral transform
(`torchaudio`'s `MelSpectrogram`, not part of this repository's sources)
produces for an input of `length` samples — the spec gives the formula
`floor((length - win_length) / hop_length) + 1`. -/
def melFrameCount (win_length hop_length : ℕ) (length : ℤ) : ℤ :=
  ⌊((length : ℚ) - win_length) / hop_length⌋ + 1

/-- C3 counterexample.  With the default `win_length = 400`,
`hop_length = 200` and a 100-sample input, the code's truncation toward
zero gives 0 whereas the claimed `floor((N - win_length)/hop_length) + 1`
is −1: the claim fails for sample counts below `win_length`. -/
theorem compute_lengths_counterexample :
    StandardAudioTransform.compute_lengths 400 200 100 = 0 ∧
    melFrameCount 400 200 100 = -1 ∧ (0 : ℤ) ≠ -1 := by
  refine ⟨?_, ?_, by decide⟩
  · show ratTrunc (((100 : ℚ) - 400) / 200 + 1) = 0
    norm_num [ratTrunc]
  · show ⌊((100 : ℚ) - 400) / 200⌋ + 1 = -1
    norm_num

/-- C3 (amended to sample counts of at least `win_length`, where the
nonnegative quotient makes truncation and floor agree).
`compute_lengths(N)` equals `floor((N - win_length)/hop_length) + 1`, which
is the frame count of the spectral transform as modelled from the spec. -/
theorem compute_lengths_spec (win_length hop_length : ℕ) (N : ℤ)
    (hwin : (win_length : ℤ) ≤ N) :
    StandardAudioTransform.compute_lengths win_length hop_length N =
      ⌊((N : ℚ) - win_length) / hop_length⌋ + 1 ∧
    StandardAudioTransform.compute_lengths win_length hop_length N =
      melFrameCount win_length hop_length N := by
  have hq : (0 : ℚ) ≤ ((N : ℚ) - win_length) / hop_length := by
    apply div_nonneg
    · have : (win_length : ℚ) ≤ (N : ℚ) := by exact_mod_cast hwin
      linarith
    · exact Nat.cast_nonneg hop_length
  have hnotlt : ¬ (((N : ℚ) - win_length) / hop_length + 1 < 0) := by linarith
  constructor
  · rw [StandardAudioTransform.compute_lengths, ratTrunc, if_neg hnotlt,
      Int.floor_add_one]
  · rw [StandardAudioTransform.compute_lengths, ratTrunc, if_neg hnotlt,
      Int.floor_add_one, melFrameCount]

/-- C3 witness. -/
theorem compute_lengths_spec_witness :
    StandardAudioTransform.compute_lengths 400 200 500 =
      ⌊((500 : ℚ) - (400 : ℕ)) / (200 : ℕ)⌋ + 1 ∧
    StandardAudioTransform.compute_lengths 400 200 500 =
      melFrameCount 400 200 500 := by
  have h := compute_lengths_spec 400 200 500 (by norm_num)
  exact ⟨h.1, h.2⟩

/-! ## Pipeline composer -/

/-- One pipeline stage: its invocation function over pipeline values plus
whether it is an `nn.Module` (`isinstance(x, nn.Module)`), i.e. a
parameterized unit that must be registered.  A pipeline value of type `α`
stands for the single argument (possibly a tuple) threaded between
stages. -/
structure Stage (α : Type) where
  fn : α → α
  isModule : Bool

/-- Source `Composition`: stores the ordered stage list and registers exactly the
`nn.Module` stages in an `nn.ModuleList` (`_module_list`). -/
structure Composition (α : Type) where
  modules : List (Stage α)

/-- Source `compose(*collate_modules) = Composition(collate_modules)`. -/
def compose {α : Type} (ms : List (Stage α)) : Composition α := ⟨ms⟩

/-- The registered (parameter-carrying) sub-stages:
`nn.ModuleList(list(filter(lambda x: isinstance(x, nn.Module), modules)))`. -/
def Composition.moduleList {α : Type} (c : Composition α) : List (Stage α) :=
  c.modules.filter (fun s => s.isModule)

/-- Source `Composition.forward(*args)`: fold each stage over the running value,
re-wrapping each output as the sole input of the next stage, and return the
last output. -/
def Composition.forward {α : Type} (c : Composition α) (args : α) : α :=
  c.modules.foldl (fun a m => m.fn a) args

/-- C8.  The composed callable threads the initial argument through the
stages strictly in list order — the empty pipeline returns its input, and a
pipeline `m :: ms` feeds its input to `m` and `m`'s output to the rest — and
the registered module list holds exactly the stages flagged as parameterized
modules, in order. -/
theorem compose_threads_in_order {α : Type} (ms : List (Stage α))
    (m : Stage α) (x : α) :
    (compose ([] : List (Stage α))).forward x = x ∧
    (compose (m :: ms)).forward x = (compose ms).forward (m.fn x) ∧
    (compose ms).moduleList = ms.filter (fun s => s.isModule) ∧
    (∀ s : Stage α, s ∈ (compose ms).moduleList ↔ (s ∈ ms ∧ s.isModule = true)) := by
  refine ⟨rfl, rfl, rfl, fun s => ?_⟩
  simp [Composition.moduleList, compose, List.mem_filter]

/-! ## Spectral feature extractor: forward -/

/-- A tensor of rationals: either a 0-dimensional scalar or a list of
sub-tensors along the outermost dimension. -/
inductive Tensor where
  | scalar : ℚ → Tensor
  | dim : List Tensor → Tensor

/-- The shape of a (regular) tensor, read off the outermost lengths. -/
def Tensor.shape : Tensor → List ℕ
  | .scalar _ => []
  | .dim [] => [0]
  | .dim (t :: ts) => (ts.length + 1) :: t.shape

mutual

/-- Elementwise application of a scalar function, as in the in-place
`add_(1e-7)` / `log_()` calls. -/
def Tensor.map (f : ℚ → ℚ) : Tensor → Tensor
  | .scalar x => .scalar (f x)
  | .dim ts => .dim (Tensor.mapList f ts)

/-- Elementwise application along the outermost dimension. -/
def Tensor.mapList (f : ℚ → ℚ) : List Tensor → List Tensor
  | [] => []
  | t :: ts => Tensor.map f t :: Tensor.mapList f ts

end

mutual

theorem Tensor.map_shape (f : ℚ → ℚ) :
    ∀ t : Tensor, (Tensor.map f t).shape = t.shape
  | .scalar _ => rfl
  | .dim [] => rfl
  | .dim (t :: ts) => by
    simp only [Tensor.map, Tensor.mapList, Tensor.shape, Tensor.map_shape f t,
      Tensor.mapList_length f ts]

theorem Tensor.mapList_length (f : ℚ → ℚ) :
    ∀ ts : List Tensor, (Tensor.mapList f ts).length = ts.length
  | [] => rfl
  | t :: ts => by
    simp only [Tensor.mapList, List.length_cons, Tensor.mapList_length f ts]

end

/-- The sub-tensors along the outermost dimension (empty for a scalar). -/
def Tensor.outer : Tensor → List Tensor
  | .scalar _ => []
  | .dim ts => ts

/-- Source `torch.stack(tensors, 1)`: the new axis of size `len(tensors)` is
inserted at position 1, so `result[i][j] = tensors[j][i]`. -/
def stackDim1 (ts : List Tensor) : Tensor :=
  match ts with
  | [] => .dim []
  | t0 :: _ =>
    .dim ((List.range t0.outer.length).map
      (fun i => .dim (ts.map (fun t => t.outer.getD i (.scalar 0)))))

/-- Source `StandardAudioTransform.forward(audio)`:
`log_mels = spec_transform(audio).add_(1e-7).log_()`, `deltas` and `accels`
by applying `delta_transform` once and twice, then `torch.stack(..., 1)`.
The external `torchaudio` operators — `MelSpectrogram` (`spec_transform`),
`ComputeDeltas` (`delta_transform`) and the elementwise natural log — are
abstract parameters. -/
def StandardAudioTransform.forward
    (spec_transform delta_transform : Tensor → Tensor) (log_fn : ℚ → ℚ)
    (audio : Tensor) : Tensor :=
  let log_mels := Tensor.map (fun v => log_fn (v + 1 / 10000000)) (spec_transform audio)
  let deltas := delta_transform log_mels
  let accels := delta_transform deltas
  stackDim1 [log_mels, deltas, accels]

lemma stackDim1_shape {a : Tensor} (b c : Tensor) {d0 : ℕ} {rest : List ℕ}
    (ha : a.shape = d0 :: rest) (h0 : 0 < d0) :
    (stackDim1 [a, b, c]).shape = d0 :: 3 :: rest := by
  cases a with
  | scalar x => cases ha
  | dim ts =>
    cases ts with
    | nil =>
      rw [Tensor.shape] at ha
      cases ha
      cases h0
    | cons t0 ts2 =>
      rw [Tensor.shape] at ha
      obtain ⟨hd0, hrest⟩ : ts2.length + 1 = d0 ∧ t0.shape = rest := by
        cases ha
        exact ⟨rfl, rfl⟩
      subst hd0
      rw [stackDim1]
      simp only [Tensor.outer, List.length_cons, List.range_succ_eq_map,
        List.map_cons, Tensor.shape, List.length_map, List.length_range]
      simp only [List.getD, List.getElem?_cons_zero, List.get?_cons_zero,
        Option.getD_some, hrest, List.length_nil]

/-- C6 counterexample.  Feeding an unbatched input — one whose mel
spectrogram is the 2‑D `[mel, time] = [2, 2]` tensor below — through
`forward` yields shape `[2, 3, 2]` (`[mel, 3, time]`), not the claimed
`[3, mel, time] = [3, 2, 2]`: `torch.stack(..., 1)` inserts the channel
axis at position 1, not 0. -/
theorem standard_forward_unbatched_counterexample :
    (StandardAudioTransform.forward
      (fun _ => Tensor.dim [Tensor.dim [Tensor.scalar 1, Tensor.scalar 2],
        Tensor.dim [Tensor.scalar 3, Tensor.scalar 4]])
      (fun t => t) (fun v => v) (Tensor.dim [Tensor.scalar 0])).shape
      = [2, 3, 2] ∧ [2, 3, 2] ≠ [3, 2, 2] := by
  exact ⟨rfl, by decide⟩

/-- C6 (amended: the stack happens along axis 1 unconditionally, which gives
the claimed `[batch, 3, mel, time]` layout only in the batched case; an
unbatched `[mel, time]` spectrogram yields `[mel, 3, time]`).  The three
stacked channels are the log-mel spectrogram (natural log of the mel
spectrogram plus 1e-7), its delta, and the delta operator applied again to
the delta, all of one shape; stacking inserts 3 at position 1 of that
shape. -/
theorem standard_forward_stack
    (spec_transform delta_transform : Tensor → Tensor) (log_fn : ℚ → ℚ)
    (audio : Tensor) (d0 : ℕ) (rest : List ℕ)
    (hd : ∀ t, (delta_transform t).shape = t.shape)
    (hs : (spec_transform audio).shape = d0 :: rest) (h0 : 0 < d0) :
    (StandardAudioTransform.forward spec_transform delta_transform log_fn audio).shape
        = d0 :: 3 :: rest ∧
    (Tensor.map (fun v => log_fn (v + 1 / 10000000)) (spec_transform audio)).shape
        = d0 :: rest ∧
    (delta_transform (Tensor.map (fun v => log_fn (v + 1 / 10000000))
        (spec_transform audio))).shape = d0 :: rest ∧
    (delta_transform (delta_transform (Tensor.map (fun v => log_fn (v + 1 / 10000000))
        (spec_transform audio)))).shape = d0 :: rest ∧
    StandardAudioTransform.forward spec_transform delta_transform log_fn audio =
      stackDim1
        [Tensor.map (fun v => log_fn (v + 1 / 10000000)) (spec_transform audio),
         delta_transform (Tensor.map (fun v => log_fn (v + 1 / 10000000))
           (spec_transform audio)),
         delta_transform (delta_transform (Tensor.map (fun v => log_fn (v + 1 / 10000000))
           (spec_transform audio)))] := by
  have hL : (Tensor.map (fun v => log_fn (v + 1 / 10000000)) (spec_transform audio)).shape
      = d0 :: rest := by
    rw [Tensor.map_shape, hs]
  refine ⟨?_, hL, ?_, ?_, rfl⟩
  · exact stackDim1_shape _ _ hL h0
  · rw [hd, hL]
  · rw [hd, hd, hL]

/-- C6 witness. -/
theorem standard_forward_stack_witness :
    (StandardAudioTransform.forward
      (fun _ => Tensor.dim [Tensor.dim [Tensor.dim [Tensor.scalar 1, Tensor.scalar 2]]])
      (fun t => t) (fun v => v) (Tensor.scalar 0)).shape = 1 :: 3 :: [1, 2] :=
  (standard_forward_stack
    (fun _ => Tensor.dim [Tensor.dim [Tensor.dim [Tensor.scalar 1, Tensor.scalar 2]]])
    (fun t => t) (fun v => v) (Tensor.scalar 0) 1 [1, 2]
    (fun _ => rfl) rfl (by decide)).1

end WW4FF
